import Mathlib

/-!
Verification development for the Live-Screen-Translator repository.

Shallow embedding of the core components named by the specification:
the OCR result aggregator (`src/core/ocr/ocr_manager.py`,
`src/models/ocr_model.py`), the OCR cache (`src/ocr_manager.py`,
`src/models/ocr_model.py`), the translation retry mechanism
(`src/core/translation/translation_worker.py`,
`src/models/translation_model.py`), the capture/translate loop
(`src/controllers/translation_controller.py`), and the translation
history stores (`src/translation_history.py`,
`src/models/translation_model.py`).

Coordinates are modelled as rationals, Python strings as Lean `String`
(character lists for the text-repair routines), and fallible calls as
`Except`/`Option` values.
-/

unseal Rat.mul Rat.inv Rat.add Rat.sub

namespace Agg

/-- One EasyOCR detection: the tuple `(bbox, text, confidence)` where
`bbox` is the list of four corner points `[tl, tr, br, bl]`.
Mirrors the result triples consumed by the aggregation code in
`OCRManager._perform_ocr` (src/core/ocr/ocr_manager.py) and
`OCRManager._group_text_blocks` (src/models/ocr_model.py). -/
structure Block where
  p0 : ℚ × ℚ
  p1 : ℚ × ℚ
  p2 : ℚ × ℚ
  p3 : ℚ × ℚ
  text : String
  conf : ℚ
deriving DecidableEq

/-- `min(p[1] for p in r[0])`: the top y-coordinate of a block
(`OCRManager._get_block_y_position`). -/
def topY (b : Block) : ℚ :=
  min (min b.p0.2 b.p1.2) (min b.p2.2 b.p3.2)

/-- `min(p[0] for p in r[0])`: the left x-coordinate of a block
(`OCRManager._get_block_x_position`). -/
def leftX (b : Block) : ℚ :=
  min (min b.p0.1 b.p1.1) (min b.p2.1 b.p3.1)

/-- `abs(box[0][3][1] - box[0][0][1])`: the vertical extent of a block,
the absolute difference of the y-coordinates of corners 3 and 0. -/
def height (b : Block) : ℚ := |b.p3.2 - b.p0.2|

/-- `avg_height * 0.5` where `avg_height = sum(heights) / len(heights)`:
the line-grouping threshold (`OCRManager._calculate_line_threshold`). -/
def lineThreshold (rs : List Block) : ℚ :=
  ((rs.map height).sum / (rs.length : ℚ)) * (1 / 2)

/-- The sort key used by `sorted(results, key=lambda r: min(p[1] for p in r[0]))`. -/
def blockLE (a b : Block) : Prop := topY a ≤ topY b

instance : DecidableRel blockLE := fun a b =>
  inferInstanceAs (Decidable (topY a ≤ topY b))

instance : IsTotal Block blockLE := ⟨fun a b => le_total (topY a) (topY b)⟩

instance : IsTrans Block blockLE := ⟨fun _ _ _ h1 h2 => le_trans h1 h2⟩

/-- Stable sort of the detections by top y-coordinate, as Python's
stable `sorted` with key `min(p[1] for p in r[0])`. -/
def sortedByY (rs : List Block) : List Block := List.insertionSort blockLE rs

/-- The key of `current_line.sort(key=lambda r: min(p[0] for p in r[0]))`. -/
def blockXLE (a b : Block) : Prop := leftX a ≤ leftX b

instance : DecidableRel blockXLE := fun a b =>
  inferInstanceAs (Decidable (leftX a ≤ leftX b))

/-- Stable sort of one line by left x-coordinate
(`OCRManager._sort_line_by_x_position`). -/
def sortLineByX (line : List Block) : List Block :=
  List.insertionSort blockXLE line

/-- The grouping walk of `OCRManager._perform_ocr` /
`OCRManager._group_text_blocks`: walk the y-sorted blocks keeping the
running `last_y`; a block joins `current_line` when
`abs(top_y - last_y) <= threshold` (`_should_add_to_current_line`),
otherwise the current line is emitted and a new one starts.  Lines are
returned in walk order; the per-line x-sort is applied afterwards. -/
def splitGo (thr : ℚ) (lastY : ℚ) (cur : List Block) : List Block → List (List Block)
  | [] => [cur]
  | b :: bs =>
    if |topY b - lastY| ≤ thr then splitGo thr (topY b) (cur ++ [b]) bs
    else cur :: splitGo thr (topY b) [b] bs

/-- Grouping of an already y-sorted detection list into lines, with the
x-sort applied to every finished line, exactly as the loop in
`_group_text_blocks` (src/models/ocr_model.py lines 269-305) and the
inline loop in `_perform_ocr` (src/core/ocr/ocr_manager.py lines 124-148). -/
def groupSorted (thr : ℚ) : List Block → List (List Block)
  | [] => []
  | b :: bs => (splitGo thr (topY b) [b] bs).map sortLineByX

/-- `OCRManager._group_text_blocks`: threshold from the raw list, sort by
top-y, group into lines, sort each line by left-x. -/
def groupTextBlocks (rs : List Block) : List (List Block) :=
  groupSorted (lineThreshold rs) (sortedByY rs)

/-- `' '.join(...)` / `'. '.join(...)` on a list of strings. -/
def joinWith (sep : String) : List String → String
  | [] => ""
  | [s] => s
  | s :: rest => s ++ sep ++ joinWith sep rest

/-- `line_text = ' '.join(block[1] for block in line)`. -/
def lineText (line : List Block) : String := joinWith " " (line.map Block.text)

/-- Does `pat` occur at the head of `s`?  (Substring match used by the
model of Python's `str.replace` and `str.split`.) -/
def matchesAt : List Char → List Char → Bool
  | [], _ => true
  | _ :: _, [] => false
  | p :: ps, c :: cs => p == c && matchesAt ps cs

/-- Scanning loop of Python `str.replace(pat, rep)`: replace every
non-overlapping occurrence of `pat` left to right.  The `fuel`
argument only makes the recursion structural; one character is consumed
per step, so `fuel = s.length` never runs out for a non-empty `pat`. -/
def replaceAllGo (pat rep : List Char) : Nat → List Char → List Char
  | _, [] => []
  | 0, s => s
  | fuel + 1, c :: cs =>
    if matchesAt pat (c :: cs) then
      rep ++ replaceAllGo pat rep fuel ((c :: cs).drop pat.length)
    else
      c :: replaceAllGo pat rep fuel cs

/-- Python `str.replace(pat, rep)`.  (For the empty pattern the input is
returned unchanged; the source only uses non-empty patterns.) -/
def replaceAll (pat rep s : List Char) : List Char :=
  if pat = [] then s else replaceAllGo pat rep s.length s

/-- Scanning loop of Python `str.split(sep)` for a non-empty separator,
accumulating the current segment in reverse.  `fuel` as in
`replaceAllGo`. -/
def splitOnGo (sep : List Char) : Nat → List Char → List Char → List (List Char)
  | _, acc, [] => [acc.reverse]
  | 0, acc, s => [acc.reverse ++ s]
  | fuel + 1, acc, c :: cs =>
    if matchesAt sep (c :: cs) then
      acc.reverse :: splitOnGo sep fuel [] ((c :: cs).drop sep.length)
    else
      splitOnGo sep fuel (c :: acc) cs

/-- Python `str.split(sep)`.  (For the empty separator the input becomes
one segment; the source only splits on `". "`.) -/
def splitOnL (sep s : List Char) : List (List Char) :=
  if sep = [] then [s] else splitOnGo sep s.length [] s

/-- `if sentence and sentence[0].islower(): sentence = sentence[0].upper() + sentence[1:]` -/
def fixSentence : List Char → List Char
  | [] => []
  | c :: cs => if c.isLower then c.toUpper :: cs else c :: cs

/-- The literal replacement table of `OCRManager._fix_ocr_errors`
(src/core/ocr/ocr_manager.py lines 171-196), in dictionary insertion
order. -/
def replacements : List (String × String) :=
  [("1 ", "I "), (" 1 ", " I "), (" i ", " I "), (" im ", " I\x27m "),
   (" ill ", " I\x27ll "), (" ive ", " I\x27ve "), (" id ", " I\x27d ")]

/-- `'. '.join(...)` on character lists. -/
def joinCharLists (sep : List Char) : List (List Char) → List Char
  | [] => []
  | [s] => s
  | s :: rest => s ++ sep ++ joinCharLists sep rest

/-- `OCRManager._fix_ocr_errors` (src/core/ocr/ocr_manager.py): apply
the replacement table in order, then capitalize the first letter of
every `". "`-delimited fragment that starts with a lowercase letter. -/
def fixOcrErrors (s : String) : String :=
  let t := replacements.foldl (fun acc pr => replaceAll pr.1.data pr.2.data acc) s.data
  let sentences := (splitOnL ". ".data t).map fixSentence
  String.mk (joinCharLists ". ".data sentences)

/-- The EasyOCR aggregation of `OCRManager._perform_ocr`
(src/core/ocr/ocr_manager.py lines 115-161): empty detection list gives
`""`; otherwise the detections are grouped into lines, each line's texts
are joined with a space, the lines are joined with a space, and
`_fix_ocr_errors` is applied. -/
def aggregate (rs : List Block) : String :=
  if rs = [] then ""
  else fixOcrErrors (joinWith " " ((groupTextBlocks rs).map lineText))

end Agg

namespace Cache

/-- `cache_key = (image_hash, method, source_lang)` as built by
`OCRManager.process_image`.  The Python `hash` of the image bytes is
modelled as an integer. -/
abbrev CacheKey := Int × String × String

/-- The `self._cached_results` dict of `OCRManager.__init__`
(src/ocr_manager.py): key to `(cached_time, cached_result)`. -/
abbrev CacheState := List (CacheKey × (ℚ × String))

/-- `self._cache_timeout = 5  # 5 second cache timeout`. -/
def cacheTimeout : ℚ := 5

/-- `cache_key in self._cached_results` plus the value read: scan the
dict for the key. -/
def cacheLookup : CacheState → CacheKey → Option (ℚ × String)
  | [], _ => none
  | (k', v) :: rest, k => if k' = k then some v else cacheLookup rest k

/-- `self._cached_results[cache_key] = value`: Python dict assignment,
replacing the value in place if the key is present, appending otherwise. -/
def cacheStore : CacheState → CacheKey → ℚ × String → CacheState
  | [], k, v => [(k, v)]
  | (k', v') :: rest, k, v =>
    if k' = k then (k, v) :: rest else (k', v') :: cacheStore rest k v

/-- Errors raised by the underlying OCR call; Python exception details
are irrelevant to the claims, so a single constructor suffices. -/
abbrev OcrError := Unit

/-- `OCRManager.process_image` (src/ocr_manager.py lines 58-79) at time
`now`: on a fresh or expired key, run `_perform_ocr` (whose outcome for
this image/engine/language is `perform`) and cache `(now, result)`;
within the timeout return the cached result without recomputing.  The
surrounding `try/except` catches every exception and returns `""`
without caching, so the returned value is always `Except.ok`.  The
`Bool` records whether `_perform_ocr` was invoked. -/
def process_image (cache : CacheState) (now : ℚ) (k : CacheKey)
    (perform : Except OcrError String) : Except OcrError (String × CacheState × Bool) :=
  match cacheLookup cache k with
  | some (t, v) =>
    if now - t < cacheTimeout then Except.ok (v, cache, false)
    else
      match perform with
      | Except.ok r => Except.ok (r, cacheStore cache k (now, r), true)
      | Except.error _ => Except.ok ("", cache, true)
  | none =>
    match perform with
    | Except.ok r => Except.ok (r, cacheStore cache k (now, r), true)
    | Except.error _ => Except.ok ("", cache, true)

/-- `OCRManager._perform_ocr` of src/models/ocr_model.py (lines 183-196):
every engine exception is caught and `""` returned, so the call never
fails. -/
def models_perform_ocr (perform : Except OcrError String) : String :=
  match perform with
  | Except.ok r => r
  | Except.error _ => ""

/-- `OCRManager.process_image` of src/models/ocr_model.py (lines
121-143), with the `TTLCache(maxsize=100, ttl=5)` modelled by the same
lazy time-stamped lookup: a fresh or expired key runs `_perform_ocr`
(which itself swallows failures into `""`) and caches whatever string
comes back — including the `""` produced by a failed engine call. -/
def models_process_image (cache : CacheState) (now : ℚ) (k : CacheKey)
    (perform : Except OcrError String) : Except OcrError (String × CacheState × Bool) :=
  match cacheLookup cache k with
  | some (t, v) =>
    if now - t < cacheTimeout then Except.ok (v, cache, false)
    else
      Except.ok (models_perform_ocr perform,
        cacheStore cache k (now, models_perform_ocr perform), true)
  | none =>
    Except.ok (models_perform_ocr perform,
      cacheStore cache k (now, models_perform_ocr perform), true)

end Cache

namespace Retry

/-- Outcome of one attempt of the `session.get` block in
`GoogleTranslator._make_request` (src/models/translation_model.py lines
143-180): a parsed JSON payload (`none` when `json.loads` fails, which
the code turns into a `None` return), a transient
`aiohttp.ClientConnectorError`, a non-transient `aiohttp.ClientError`,
or any other exception. -/
inductive ReqOutcome where
  | ok (payload : Option String)
  | connErr
  | clientErr
  | otherErr
deriving DecidableEq

/-- The exception classes that can escape `_make_request`. -/
inductive RequestError where
  | connError
  | clientError
  | otherError
deriving DecidableEq

/-- `MAX_RETRIES = 3`. -/
def MAX_RETRIES : Nat := 3

/-- `RETRY_DELAY = 1  # seconds`. -/
def RETRY_DELAY : Nat := 1

/-- What a run of `_make_request` did: the returned value or raised
exception, how many attempts were made, and the argument of each
`asyncio.sleep` call, in order. -/
structure RunResult where
  result : Except RequestError (Option String)
  attempts : Nat
  delays : List Nat

/-- The `for attempt in range(self.MAX_RETRIES)` loop of
`GoogleTranslator._make_request`, recursing over the remaining attempt
indices: a successful request returns its payload; on
`ClientConnectorError` the last attempt re-raises, earlier attempts
sleep `RETRY_DELAY * (attempt + 1)` and retry; `ClientError` and any
other exception propagate immediately.  Falling out of the loop returns
`None` (dead code, kept for faithfulness). -/
def makeRequestAux (backend : Nat → ReqOutcome) : List Nat → RunResult
  | [] => ⟨Except.ok none, 0, []⟩
  | i :: rest =>
    match backend i with
    | ReqOutcome.ok payload => ⟨Except.ok payload, 1, []⟩
    | ReqOutcome.clientErr => ⟨Except.error RequestError.clientError, 1, []⟩
    | ReqOutcome.otherErr => ⟨Except.error RequestError.otherError, 1, []⟩
    | ReqOutcome.connErr =>
      if rest = [] then ⟨Except.error RequestError.connError, 1, []⟩
      else
        let r := makeRequestAux backend rest
        ⟨r.result, r.attempts + 1, RETRY_DELAY * (i + 1) :: r.delays⟩

/-- `GoogleTranslator._make_request` with the per-attempt backend
behaviour `backend`. -/
def makeRequest (backend : Nat → ReqOutcome) : RunResult :=
  makeRequestAux backend (List.range MAX_RETRIES)

end Retry

namespace Loop

/-- One recorded translation, as handed to
`TranslationModel.add_to_history` by `_update_window_and_history`:
the OCR text and the translated text (the language/engine/timestamp
fields do not influence the de-duplication claim). -/
structure HistoryRecord where
  source_text : String
  translated_text : String
deriving DecidableEq

/-- The worker state of `TranslationController`
(src/controllers/translation_controller.py): `self._last_ocr_text` and
the translation history grown by `add_to_history`. -/
structure LoopState where
  lastOcrText : String
  history : List HistoryRecord
deriving DecidableEq

/-- One iteration of `_translation_worker` from a captured frame whose
OCR result is `ocrText`, with `translate` the behaviour of
`_translate_text` (`none` models an exception caught inside it, a
`some` the value returned by `TranslationModel.translate`, which is
`""` on failure).  Mirrors `_process_and_translate` (lines 175-202):
empty or unchanged text short-circuits before translation;
otherwise `_last_ocr_text` is updated, the text is translated, and on a
non-empty translation `_update_window_and_history` appends a history
entry.  The `Bool` records whether translation was invoked. -/
def workerStep (translate : String → Option String) (s : LoopState)
    (ocrText : String) : LoopState × Bool :=
  if ocrText = "" ∨ ocrText = s.lastOcrText then (s, false)
  else
    let s1 : LoopState := { s with lastOcrText := ocrText }
    match translate ocrText with
    | none => (s1, true)
    | some t =>
      if t = "" then (s1, true)
      else ({ s1 with history := s1.history ++ [⟨ocrText, t⟩] }, true)

end Loop

namespace Hist

/-- One history dict as built by `TranslationHistory.add_entry`
(src/translation_history.py): timestamp plus text, engine and language
fields. -/
structure LegacyEntry where
  timestamp : String
  source_text : String
  translated_text : String
  ocr_engine : String
  translation_engine : String
  source_lang : String
  target_lang : String
deriving DecidableEq

/-- `self.max_entries = 100` (src/translation_history.py line 12). -/
def max_entries : Nat := 100

/-- The in-memory mutation of `TranslationHistory.add_entry`
(src/translation_history.py lines 37-54): `self.history.insert(0,
entry)`, then truncate to the first `max_entries` entries when the cap
is exceeded. -/
def add_entry (e : LegacyEntry) (history : List LegacyEntry) : List LegacyEntry :=
  let h1 := e :: history
  if h1.length > max_entries then h1.take max_entries else h1

/-- The full object state of a `TranslationHistory`: the in-memory
`self.history` and the contents of the persisted
`translation_history.json` file. -/
structure LegacyHistoryState where
  history : List LegacyEntry
  file : List LegacyEntry
deriving DecidableEq

/-- `TranslationHistory.clear_history` (src/translation_history.py lines
60-63): `self.history = []` succeeds, but the following
`self.save_history()` raises `AttributeError` — the class defines only
`save_history_async` and `_save_to_file`, no `save_history` — so the
method aborts with the in-memory list already emptied and the persisted
file untouched.  The pair returns the object state after the call and
the raised exception. -/
def clear_history (s : LegacyHistoryState) : LegacyHistoryState × Except String Unit :=
  ({ s with history := [] },
   Except.error "AttributeError: TranslationHistory has no attribute save_history")

end Hist

namespace Iso

/-- A naive `datetime.datetime` value as produced by `datetime.now()`
and stored in `TranslationEntry.timestamp`
(src/models/translation_model.py). -/
structure PyDateTime where
  year : Nat
  month : Nat
  day : Nat
  hour : Nat
  minute : Nat
  second : Nat
  microsecond : Nat
deriving DecidableEq

/-- Zero-padded fixed-width decimal rendering: `w` digits of `n`,
most significant first, as Python's `%04d`/`%02d`/`%06d` fields of
`datetime.isoformat`. -/
def padDigits : Nat → Nat → List Char
  | 0, _ => []
  | w + 1, n => padDigits w (n / 10) ++ [Nat.digitChar (n % 10)]

/-- Read exactly `k` decimal digits, most significant first, extending
the accumulator; fails on a non-digit or on running out of input.
Models the fixed-width fields of `datetime.fromisoformat`. -/
def readNat : Nat → List Char → Nat → Option (Nat × List Char)
  | 0, cs, acc => some (acc, cs)
  | _ + 1, [], _ => none
  | k + 1, c :: cs, acc =>
    if c.isDigit then readNat k cs (acc * 10 + (c.toNat - 48)) else none

/-- Consume one expected separator character. -/
def expectChar (c : Char) : List Char → Option (List Char)
  | [] => none
  | x :: xs => if x = c then some xs else none

/-- `datetime.isoformat()`: `YYYY-MM-DDTHH:MM:SS`, with `.ffffff`
appended only when the microsecond field is non-zero. -/
def toIso (d : PyDateTime) : List Char :=
  padDigits 4 d.year ++ ('-' :: (padDigits 2 d.month ++ ('-' :: (padDigits 2 d.day ++
    ('T' :: (padDigits 2 d.hour ++ (':' :: (padDigits 2 d.minute ++
      (':' :: (padDigits 2 d.second ++
        (if d.microsecond = 0 then [] else '.' :: padDigits 6 d.microsecond)))))))))))

/-- `datetime.fromisoformat` restricted to the two shapes `isoformat`
emits: the fixed-width date-time prefix and an optional
`.ffffff` microsecond suffix; anything else fails. -/
def fromIso (cs : List Char) : Option PyDateTime := do
  let (y, cs) ← readNat 4 cs 0
  let cs ← expectChar '-' cs
  let (mo, cs) ← readNat 2 cs 0
  let cs ← expectChar '-' cs
  let (d, cs) ← readNat 2 cs 0
  let cs ← expectChar 'T' cs
  let (h, cs) ← readNat 2 cs 0
  let cs ← expectChar ':' cs
  let (mi, cs) ← readNat 2 cs 0
  let cs ← expectChar ':' cs
  let (s, cs) ← readNat 2 cs 0
  match cs with
  | [] => pure ⟨y, mo, d, h, mi, s, 0⟩
  | _ => do
    let cs ← expectChar '.' cs
    let (us, cs) ← readNat 6 cs 0
    if cs = [] then pure ⟨y, mo, d, h, mi, s, us⟩ else none

/-- The field ranges within which `isoformat` uses exactly the padded
widths above; every value built from a real `datetime` satisfies them. -/
def InRange (d : PyDateTime) : Prop :=
  d.year < 10000 ∧ d.month < 100 ∧ d.day < 100 ∧ d.hour < 100 ∧
    d.minute < 100 ∧ d.second < 100 ∧ d.microsecond < 1000000

instance : DecidablePred InRange := fun d =>
  inferInstanceAs (Decidable (_ ∧ _ ∧ _ ∧ _ ∧ _ ∧ _ ∧ _))

end Iso

namespace Model

open Iso

/-- `TranslationEntry` (src/models/translation_model.py lines 22-52). -/
structure TranslationEntry where
  source_text : String
  translated_text : String
  source_lang : String
  target_lang : String
  translation_engine : String
  timestamp : PyDateTime
deriving DecidableEq

/-- The dictionary produced by `TranslationEntry.to_dict` and written to
`translation_history.json`: the string fields verbatim, the timestamp
as its `isoformat()` string. -/
structure EntryDict where
  source_text : String
  translated_text : String
  source_lang : String
  target_lang : String
  translation_engine : String
  timestamp : String
deriving DecidableEq

/-- `TranslationEntry.to_dict`. -/
def to_dict (e : TranslationEntry) : EntryDict :=
  ⟨e.source_text, e.translated_text, e.source_lang, e.target_lang,
   e.translation_engine, String.mk (toIso e.timestamp)⟩

/-- `TranslationEntry.from_dict`: rebuild the entry, parsing the
timestamp with `datetime.fromisoformat` (failure propagates as an
exception, modelled by `none`). -/
def from_dict (d : EntryDict) : Option TranslationEntry :=
  (fromIso d.timestamp.data).map fun t =>
    ⟨d.source_text, d.translated_text, d.source_lang, d.target_lang,
     d.translation_engine, t⟩

/-- `TranslationModel._save_history`: the persisted file content is
`[entry.to_dict() for entry in self._history]`. -/
def saveHistory (history : List TranslationEntry) : List EntryDict :=
  history.map to_dict

/-- `TranslationModel._load_history`: rebuild
`[TranslationEntry.from_dict(entry) for entry in data]`; a parse failure
anywhere aborts the comprehension (the caller's `except` then resets the
history, modelled by `none`). -/
def loadHistory (file : List EntryDict) : Option (List TranslationEntry) :=
  file.mapM from_dict

/-- `TranslationModel.add_to_history` followed by its `_save_history`
call: append the new entry to the in-memory list and rewrite the file. -/
def add_to_history (e : TranslationEntry) (history : List TranslationEntry) :
    List TranslationEntry × List EntryDict :=
  let h1 := history ++ [e]
  (h1, saveHistory h1)

end Model

namespace Samples

open Agg

/-- Detection `{"I", (0,0)-(10,10)}` of the spec scenario, with the four
corners `[tl, tr, br, bl]`. -/
def sI : Block := ⟨(0, 0), (10, 0), (10, 10), (0, 10), "I", 1⟩

/-- Detection `{"see", (12,0)-(30,10)}` of the spec scenario. -/
def sSee : Block := ⟨(12, 0), (30, 0), (30, 10), (12, 10), "see", 1⟩

/-- Detection `{"you", (0,12)-(20,22)}` of the spec scenario. -/
def sYou : Block := ⟨(0, 12), (20, 12), (20, 22), (0, 22), "you", 1⟩

/-- Two detections with identical geometry and different texts (a tie
for both sort keys). -/
def tieA : Block := ⟨(0, 0), (10, 0), (10, 10), (0, 10), "left", 1⟩

/-- See `tieA`. -/
def tieB : Block := ⟨(0, 0), (10, 0), (10, 10), (0, 10), "right", 1⟩

/-- Chain counterexample: heights 10 (threshold 5), top-y 0. -/
def chainA : Block := ⟨(0, 0), (10, 0), (10, 10), (0, 10), "a", 1⟩

/-- Chain counterexample: top-y 5, within threshold of `chainA`. -/
def chainB : Block := ⟨(0, 5), (10, 5), (10, 15), (0, 15), "b", 1⟩

/-- Chain counterexample: top-y 10, within threshold of `chainB` but
10 > 5 away from `chainA`. -/
def chainC : Block := ⟨(0, 10), (10, 10), (10, 20), (0, 20), "c", 1⟩

/-- A detection with top-y 0 and height 10, for distinct-top-y samples. -/
def farA : Block := ⟨(0, 0), (10, 0), (10, 10), (0, 10), "up", 1⟩

/-- A detection with top-y 20, more than one threshold below `farA`. -/
def farB : Block := ⟨(0, 20), (10, 20), (10, 30), (0, 30), "down", 1⟩

/-- A concrete OCR cache key `(image_hash, method, source_lang)`. -/
def key0 : Cache.CacheKey := (12345, "EasyOCR", "auto")

/-- A concrete legacy history entry. -/
def legacyEntry0 : Hist.LegacyEntry :=
  ⟨"2024-01-01T00:00:00", "hello", "hallo", "Tesseract", "Gemini", "auto", "de"⟩

/-- A concrete translation entry with a representative timestamp. -/
def entry0 : Model.TranslationEntry :=
  ⟨"good morning", "guten Morgen", "en", "de", "Google Translate",
   ⟨2024, 5, 17, 10, 30, 5, 123456⟩⟩

end Samples

/-! ## Theorems -/

/-- C8: aggregating exactly the detections `{"I",(0,0)-(10,10)}`,
`{"see",(12,0)-(30,10)}`, `{"you",(0,12)-(20,22)}` uses mean height 10
and threshold 5, groups them into the two lines "I see" and "you", and
returns the joined string `"I see you"`. -/
theorem aggregate_scenario_I_see_you :
    Agg.lineThreshold [Samples.sI, Samples.sSee, Samples.sYou] = 5 ∧
    (Agg.groupTextBlocks [Samples.sI, Samples.sSee, Samples.sYou]).map Agg.lineText
      = ["I see", "you"] ∧
    Agg.aggregate [Samples.sI, Samples.sSee, Samples.sYou] = "I see you" := by
  decide

/-- C10: after any `add_entry` call the in-memory history holds at most
100 entries, the new entry sits at index 0, and the result is the
100-entry prefix of the pushed list, so only the oldest (tail) entries
are discarded when the cap is exceeded. -/
theorem add_entry_cap (e : Hist.LegacyEntry) (h : List Hist.LegacyEntry) :
    Hist.add_entry e h = (e :: h).take Hist.max_entries ∧
    (Hist.add_entry e h).length ≤ Hist.max_entries ∧
    (Hist.add_entry e h).head? = some e := by
  have base : Hist.add_entry e h = (e :: h).take Hist.max_entries := by
    show (if (e :: h).length > Hist.max_entries
        then (e :: h).take Hist.max_entries else (e :: h))
      = (e :: h).take Hist.max_entries
    split
    · rfl
    · next hle => exact (List.take_of_length_le (by omega)).symm
  refine ⟨base, ?_, ?_⟩
  · rw [base, List.length_take]
    exact min_le_left _ _
  · rw [base]
    show ((e :: h).take (99 + 1)).head? = some e
    rw [List.take_succ_cons]
    rfl

/-- C1: the capture/translate loop never invokes translation when the
new OCR text equals the stored last OCR text (the state is returned
unchanged and the invocation flag is false), and feeding the same
non-empty OCR text twice in a row — with a successful translation —
appends exactly one history record: the second iteration is a no-op. -/
theorem workerStep_dedup (f : String → Option String) (s : Loop.LoopState)
    (t tr : String) :
    Loop.workerStep f s s.lastOcrText = (s, false) ∧
    (t ≠ "" → t ≠ s.lastOcrText → f t = some tr → tr ≠ "" →
      Loop.workerStep f s t =
        (⟨t, s.history ++ [⟨t, tr⟩]⟩, true) ∧
      Loop.workerStep f (⟨t, s.history ++ [⟨t, tr⟩]⟩ : Loop.LoopState) t =
        ((⟨t, s.history ++ [⟨t, tr⟩]⟩ : Loop.LoopState), false)) := by
  constructor
  · simp [Loop.workerStep]
  · intro ht hne hf htr
    constructor
    · simp [Loop.workerStep, ht, hne, hf, htr]
    · simp [Loop.workerStep]

/-- Witness for `workerStep_dedup` at a concrete state and translator. -/
theorem workerStep_dedup_witness :
    Loop.workerStep (fun _ => some "hallo") (⟨"", []⟩ : Loop.LoopState) "hi" =
      (⟨"hi", [⟨"hi", "hallo"⟩]⟩, true) ∧
    Loop.workerStep (fun _ => some "hallo")
        (⟨"hi", [⟨"hi", "hallo"⟩]⟩ : Loop.LoopState) "hi" =
      ((⟨"hi", [⟨"hi", "hallo"⟩]⟩ : Loop.LoopState), false) := by
  have h := (workerStep_dedup (fun _ => some "hallo") (⟨"", []⟩ : Loop.LoopState)
    "hi" "hallo").2 (by decide) (by decide) rfl (by decide)
  simpa using h

/-- C7: `TranslationHistory.clear_history` empties the in-memory list
but raises `AttributeError` (there is no `save_history` method), so when
the persisted file was non-empty the call leaves exactly the partial
state the claim rules out: memory cleared, file still non-empty. -/
theorem clear_history_partial_state (s : Hist.LegacyHistoryState)
    (h : s.file ≠ []) :
    (Hist.clear_history s).1.history = [] ∧
    (Hist.clear_history s).1.file = s.file ∧
    (Hist.clear_history s).1.file ≠ [] ∧
    (Hist.clear_history s).2 =
      Except.error "AttributeError: TranslationHistory has no attribute save_history" := by
  exact ⟨rfl, rfl, h, rfl⟩

/-- Witness for `clear_history_partial_state` on a one-entry file. -/
theorem clear_history_partial_state_witness :
    (Hist.clear_history ⟨[], [Samples.legacyEntry0]⟩).1.history = [] ∧
    (Hist.clear_history ⟨[], [Samples.legacyEntry0]⟩).1.file = [Samples.legacyEntry0] ∧
    (Hist.clear_history ⟨[], [Samples.legacyEntry0]⟩).1.file ≠ [] ∧
    (Hist.clear_history ⟨[], [Samples.legacyEntry0]⟩).2 =
      Except.error "AttributeError: TranslationHistory has no attribute save_history" :=
  clear_history_partial_state ⟨[], [Samples.legacyEntry0]⟩ (by simp)

/-- A key freshly stored in the cache dict is found by lookup. -/
lemma cacheLookup_store_fresh (c : Cache.CacheState) (k : Cache.CacheKey)
    (v : ℚ × String) (h : Cache.cacheLookup c k = none) :
    Cache.cacheLookup (Cache.cacheStore c k v) k = some v := by
  induction c with
  | nil => simp [Cache.cacheStore, Cache.cacheLookup]
  | cons kv rest ih =>
    obtain ⟨k', v'⟩ := kv
    by_cases hk : k' = k
    · simp [Cache.cacheLookup, hk] at h
    · simp [Cache.cacheStore, Cache.cacheLookup, hk] at h ⊢
      exact ih h

/-- C6: with the 5-second TTL, a lookup on a fresh key invokes the OCR
computation and caches the result; a second lookup with the same key
strictly within the TTL returns the first result without invoking the
computation; a third lookup once the TTL has elapsed invokes it again. -/
theorem ttl_cache_policy (c0 : Cache.CacheState) (k : Cache.CacheKey)
    (t1 t2 t3 : ℚ) (v1 v2 v3 : String)
    (h0 : Cache.cacheLookup c0 k = none)
    (h12 : t2 - t1 < Cache.cacheTimeout)
    (h13 : Cache.cacheTimeout ≤ t3 - t1) :
    Cache.process_image c0 t1 k (Except.ok v1) =
      Except.ok (v1, Cache.cacheStore c0 k (t1, v1), true) ∧
    Cache.process_image (Cache.cacheStore c0 k (t1, v1)) t2 k (Except.ok v2) =
      Except.ok (v1, Cache.cacheStore c0 k (t1, v1), false) ∧
    Cache.process_image (Cache.cacheStore c0 k (t1, v1)) t3 k (Except.ok v3) =
      Except.ok (v3, Cache.cacheStore (Cache.cacheStore c0 k (t1, v1)) k (t3, v3), true) := by
  have hl := cacheLookup_store_fresh c0 k (t1, v1) h0
  refine ⟨?_, ?_, ?_⟩
  · simp [Cache.process_image, h0]
  · simp [Cache.process_image, hl, h12]
  · have h3 : ¬(t3 - t1 < Cache.cacheTimeout) := not_lt.mpr h13
    simp [Cache.process_image, hl, h3]

/-- Witness for `ttl_cache_policy`: the spec scenario `t = 0, 4, 6`. -/
theorem ttl_cache_policy_witness :
    Cache.process_image [] 0 Samples.key0 (Except.ok "A") =
      Except.ok ("A", Cache.cacheStore [] Samples.key0 (0, "A"), true) ∧
    Cache.process_image (Cache.cacheStore [] Samples.key0 (0, "A")) 4 Samples.key0
        (Except.ok "B") =
      Except.ok ("A", Cache.cacheStore [] Samples.key0 (0, "A"), false) ∧
    Cache.process_image (Cache.cacheStore [] Samples.key0 (0, "A")) 6 Samples.key0
        (Except.ok "C") =
      Except.ok ("C",
        Cache.cacheStore (Cache.cacheStore [] Samples.key0 (0, "A")) Samples.key0 (6, "C"),
        true) :=
  ttl_cache_policy [] Samples.key0 0 4 6 "A" "B" "C" rfl (by decide) (by decide)

/-- C4 counterexample: in `OCRManager.process_image` of
src/models/ocr_model.py a failing OCR computation is swallowed — the
call returns `Except.ok ""` instead of propagating an error — and the
empty string IS stored in the cache under the key. -/
theorem ocr_failure_cached_counterexample :
    Cache.models_process_image [] 0 Samples.key0 (Except.error ()) =
      Except.ok ("", [(Samples.key0, (0, ""))], true) ∧
    Cache.cacheLookup [(Samples.key0, (0, ""))] Samples.key0 = some (0, "") := by
  exact ⟨rfl, by simp [Cache.cacheLookup]⟩

/-- C4 (amended): a failing OCR computation never propagates — both
`process_image` variants catch it and return `""`.  In src/ocr_manager.py
nothing is stored for the key, so a subsequent call invokes the OCR
computation again; in src/models/ocr_model.py the empty string is cached
for the key, so a subsequent call within the TTL returns `""` without
invoking the computation. -/
theorem ocr_failure_swallowed (c : Cache.CacheState) (now now2 : ℚ)
    (k : Cache.CacheKey) (v : String)
    (h0 : Cache.cacheLookup c k = none)
    (h12 : now2 - now < Cache.cacheTimeout) :
    Cache.process_image c now k (Except.error ()) = Except.ok ("", c, true) ∧
    Cache.process_image c now2 k (Except.ok v) =
      Except.ok (v, Cache.cacheStore c k (now2, v), true) ∧
    Cache.models_process_image c now k (Except.error ()) =
      Except.ok ("", Cache.cacheStore c k (now, ""), true) ∧
    Cache.models_process_image (Cache.cacheStore c k (now, "")) now2 k (Except.ok v) =
      Except.ok ("", Cache.cacheStore c k (now, ""), false) := by
  have hl := cacheLookup_store_fresh c k (now, "") h0
  refine ⟨?_, ?_, ?_, ?_⟩
  · simp [Cache.process_image, h0]
  · simp [Cache.process_image, h0]
  · simp [Cache.models_process_image, Cache.models_perform_ocr, h0]
  · simp [Cache.models_process_image, hl, h12]

/-- Witness for `ocr_failure_swallowed` on an empty cache at times 0, 1. -/
theorem ocr_failure_swallowed_witness :
    Cache.process_image [] 0 Samples.key0 (Except.error ()) = Except.ok ("", [], true) ∧
    Cache.process_image [] 1 Samples.key0 (Except.ok "x") =
      Except.ok ("x", Cache.cacheStore [] Samples.key0 (1, "x"), true) ∧
    Cache.models_process_image [] 0 Samples.key0 (Except.error ()) =
      Except.ok ("", Cache.cacheStore [] Samples.key0 (0, ""), true) ∧
    Cache.models_process_image (Cache.cacheStore [] Samples.key0 (0, "")) 1 Samples.key0
        (Except.ok "x") =
      Except.ok ("", Cache.cacheStore [] Samples.key0 (0, ""), false) :=
  ocr_failure_swallowed [] 0 1 Samples.key0 "x" rfl (by decide)

/-- C3: `GoogleTranslator._make_request` retries a transient
`ClientConnectorError` with a linearly increasing delay: when the first
`k < MAX_RETRIES` attempts fail transiently and attempt `k` succeeds,
the call returns the successful payload after `k + 1` attempts, sleeping
`RETRY_DELAY * (attempt + 1)` between attempts; when all `MAX_RETRIES`
attempts fail transiently the connection error is raised; a
non-transient `ClientError` on the first attempt propagates immediately
without any retry or delay. -/
theorem makeRequest_retry_policy (backend : Nat → Retry.ReqOutcome) (k : Nat)
    (p : Option String) :
    ((∀ i, i < k → backend i = Retry.ReqOutcome.connErr) →
      backend k = Retry.ReqOutcome.ok p → k < Retry.MAX_RETRIES →
      Retry.makeRequest backend =
        ⟨Except.ok p, k + 1, (List.range k).map (fun i => Retry.RETRY_DELAY * (i + 1))⟩) ∧
    ((∀ i, i < Retry.MAX_RETRIES → backend i = Retry.ReqOutcome.connErr) →
      Retry.makeRequest backend =
        ⟨Except.error Retry.RequestError.connError, Retry.MAX_RETRIES, [1, 2]⟩) ∧
    (backend 0 = Retry.ReqOutcome.clientErr →
      Retry.makeRequest backend =
        ⟨Except.error Retry.RequestError.clientError, 1, []⟩) := by
  have hr : List.range Retry.MAX_RETRIES = [0, 1, 2] := rfl
  refine ⟨?_, ?_, ?_⟩
  · intro hfail hok hk
    have hk3 : k < 3 := hk
    interval_cases k
    · simp [Retry.makeRequest, hr, Retry.makeRequestAux, hok, Retry.MAX_RETRIES]
    · have h0 := hfail 0 (by omega)
      simp [Retry.makeRequest, hr, Retry.makeRequestAux, h0, hok,
        Retry.RETRY_DELAY, Retry.MAX_RETRIES, List.range_succ]
    · have h0 := hfail 0 (by omega)
      have h1 := hfail 1 (by omega)
      simp [Retry.makeRequest, hr, Retry.makeRequestAux, h0, h1, hok,
        Retry.RETRY_DELAY, Retry.MAX_RETRIES, List.range_succ]
  · intro hfail
    have h0 := hfail 0 (by decide)
    have h1 := hfail 1 (by decide)
    have h2 := hfail 2 (by decide)
    simp [Retry.makeRequest, hr, Retry.makeRequestAux, h0, h1, h2,
      Retry.RETRY_DELAY, Retry.MAX_RETRIES]
  · intro h0
    simp [Retry.makeRequest, hr, Retry.makeRequestAux, h0]

/-- Witness for `makeRequest_retry_policy`: one transient failure then
success; all attempts transiently failing; an immediate client error. -/
theorem makeRequest_retry_policy_witness :
    Retry.makeRequest
        (fun i => if i = 0 then Retry.ReqOutcome.connErr
                  else Retry.ReqOutcome.ok (some "hola")) =
      ⟨Except.ok (some "hola"), 2, [1]⟩ ∧
    Retry.makeRequest (fun _ => Retry.ReqOutcome.connErr) =
      ⟨Except.error Retry.RequestError.connError, 3, [1, 2]⟩ ∧
    Retry.makeRequest (fun _ => Retry.ReqOutcome.clientErr) =
      ⟨Except.error Retry.RequestError.clientError, 1, []⟩ := by
  refine ⟨?_, ?_, ?_⟩
  · have h := (makeRequest_retry_policy
        (fun i => if i = 0 then Retry.ReqOutcome.connErr
                  else Retry.ReqOutcome.ok (some "hola")) 1 (some "hola")).1
      (by intro i hi; interval_cases i; rfl) (by rfl) (by decide)
    simpa using h
  · exact (makeRequest_retry_policy (fun _ => Retry.ReqOutcome.connErr) 0 none).2.1
      (fun i _ => rfl)
  · exact (makeRequest_retry_policy (fun _ => Retry.ReqOutcome.clientErr) 0 none).2.2 rfl

namespace Agg

/-- The lines produced by the grouping walk concatenate back to the
pending line followed by the unprocessed blocks. -/
lemma splitGo_join (thr : ℚ) :
    ∀ (rest : List Block) (y : ℚ) (cur : List Block),
      (splitGo thr y cur rest).join = cur ++ rest := by
  intro rest
  induction rest with
  | nil => intro y cur; simp [splitGo]
  | cons b bs ih =>
    intro y cur
    by_cases h : |topY b - y| ≤ thr
    · simp [splitGo, h, ih]
    · simp [splitGo, h, ih]

/-- Every element of a line output by the grouping walk comes from the
pending line or the unprocessed blocks. -/
lemma splitGo_line_subset (thr : ℚ) (rest : List Block) (y : ℚ)
    (cur : List Block) :
    ∀ line ∈ splitGo thr y cur rest, ∀ x ∈ line, x ∈ cur ++ rest := by
  intro line hline x hx
  rw [← splitGo_join thr rest y cur]
  exact List.mem_join.mpr ⟨line, hline, hx⟩

/-- The first line output by the grouping walk extends the pending line. -/
lemma splitGo_head (thr : ℚ) :
    ∀ (rest : List Block) (y : ℚ) (cur : List Block),
      ∃ t ls, splitGo thr y cur rest = (cur ++ t) :: ls := by
  intro rest
  induction rest with
  | nil => intro y cur; exact ⟨[], [], by simp [splitGo]⟩
  | cons b bs ih =>
    intro y cur
    by_cases h : |topY b - y| ≤ thr
    · obtain ⟨t, ls, heq⟩ := ih (topY b) (cur ++ [b])
      exact ⟨b :: t, ls, by simp [splitGo, h, heq]⟩
    · exact ⟨[], splitGo thr (topY b) [b] bs, by simp [splitGo, h]⟩

/-- Every block reaching the grouping walk ends up in some line. -/
lemma splitGo_mem (thr : ℚ) (rest : List Block) (y : ℚ) (cur : List Block)
    (x : Block) (hx : x ∈ cur ++ rest) :
    ∃ line ∈ splitGo thr y cur rest, x ∈ line := by
  rw [← splitGo_join thr rest y cur] at hx
  exact List.mem_join.mp hx

/-- If every pair of blocks in `anchor :: mid ++ [b]` is within the
threshold of each other, the walk keeps `mid ++ [b]` in the line that
currently holds `x`. -/
lemma splitGo_chain_mem (thr : ℚ) :
    ∀ (mid : List Block) (anchor : Block) (cur : List Block) (x b : Block)
      (l2 : List Block), x ∈ cur →
      List.Pairwise (fun u v => |topY v - topY u| ≤ thr) (anchor :: mid ++ [b]) →
      ∃ line ∈ splitGo thr (topY anchor) cur (mid ++ b :: l2),
        x ∈ line ∧ b ∈ line := by
  intro mid
  induction mid with
  | nil =>
    intro anchor cur x b l2 hx hpw
    have hab : |topY b - topY anchor| ≤ thr :=
      List.rel_of_pairwise_cons hpw (by simp)
    obtain ⟨t, ls, heq⟩ := splitGo_head thr l2 (topY b) (cur ++ [b])
    refine ⟨(cur ++ [b]) ++ t, ?_, ?_, ?_⟩
    · simp only [List.nil_append]
      rw [splitGo, if_pos hab, heq]
      exact List.mem_cons_self _ _
    · exact List.mem_append_left _ (List.mem_append_left _ hx)
    · exact List.mem_append_left _ (List.mem_append_right _ (by simp))
  | cons m ms ih =>
    intro anchor cur x b l2 hx hpw
    have ham : |topY m - topY anchor| ≤ thr :=
      List.rel_of_pairwise_cons hpw (by simp)
    have hpw' : List.Pairwise (fun u v => |topY v - topY u| ≤ thr)
        (m :: ms ++ [b]) := hpw.of_cons
    have := ih m (cur ++ [m]) x b l2 (List.mem_append_left _ hx) hpw'
    simpa [splitGo, ham] using this

/-- Two blocks `a`, `b` of the walked list that are pairwise within the
threshold of everything between them land in a common line, no matter
what precedes them. -/
lemma splitGo_same_line (thr : ℚ) :
    ∀ (l1 : List Block) (y : ℚ) (cur : List Block) (a : Block)
      (mid : List Block) (b : Block) (l2 : List Block),
      List.Pairwise (fun u v => |topY v - topY u| ≤ thr) (a :: mid ++ [b]) →
      ∃ line ∈ splitGo thr y cur (l1 ++ a :: mid ++ b :: l2),
        a ∈ line ∧ b ∈ line := by
  intro l1
  induction l1 with
  | nil =>
    intro y cur a mid b l2 hpw
    by_cases h : |topY a - y| ≤ thr
    · have := splitGo_chain_mem thr mid a (cur ++ [a]) a b l2 (by simp) hpw
      simpa [splitGo, h] using this
    · obtain ⟨line, hline, hmem⟩ :=
        splitGo_chain_mem thr mid a [a] a b l2 (by simp) hpw
      refine ⟨line, ?_, hmem⟩
      simp only [List.nil_append, splitGo, if_neg h]
      exact List.mem_cons_of_mem _ hline
  | cons c cs ih =>
    intro y cur a mid b l2 hpw
    by_cases h : |topY c - y| ≤ thr
    · have := ih (topY c) (cur ++ [c]) a mid b l2 hpw
      simpa [splitGo, h] using this
    · obtain ⟨line, hline, hmem⟩ := ih (topY c) [c] a mid b l2 hpw
      refine ⟨line, ?_, hmem⟩
      simp only [List.cons_append, splitGo, if_neg h]
      exact List.mem_cons_of_mem _ hline

/-- When two adjacent blocks of the walked list are farther apart than
the threshold, the walk breaks between them: the output is some lines
containing only earlier blocks, followed by the walk restarted at `b`. -/
lemma splitGo_break (thr : ℚ) :
    ∀ (rest1 : List Block) (y : ℚ) (cur : List Block) (a b : Block)
      (rest2 : List Block), ¬(|topY b - topY a| ≤ thr) →
      ∃ pre, splitGo thr y cur (rest1 ++ a :: b :: rest2) =
          pre ++ splitGo thr (topY b) [b] rest2 ∧
        ∀ line ∈ pre, ∀ x ∈ line, x ∈ cur ++ rest1 ++ [a] := by
  intro rest1
  induction rest1 with
  | nil =>
    intro y cur a b rest2 hgap
    by_cases ha : |topY a - y| ≤ thr
    · refine ⟨[cur ++ [a]], ?_, ?_⟩
      · simp [splitGo, ha, hgap]
      · intro line hline x hx
        simp only [List.mem_singleton] at hline
        subst hline
        simpa using hx
    · refine ⟨[cur, [a]], ?_, ?_⟩
      · simp [splitGo, ha, hgap]
      · intro line hline x hx
        rcases List.mem_cons.mp hline with h1 | h1
        · exact List.mem_append_left _ (List.mem_append_left _ (h1 ▸ hx))
        · simp only [List.mem_singleton] at h1
          subst h1
          simp only [List.mem_singleton] at hx
          subst hx
          simp
  | cons c cs ih =>
    intro y cur a b rest2 hgap
    by_cases hc : |topY c - y| ≤ thr
    · obtain ⟨pre, heq, hpre⟩ := ih (topY c) (cur ++ [c]) a b rest2 hgap
      refine ⟨pre, ?_, ?_⟩
      · simpa [splitGo, hc] using heq
      · intro line hline x hx
        have := hpre line hline x hx
        simp only [List.append_assoc, List.mem_append, List.mem_cons] at this ⊢
        tauto
    · obtain ⟨pre, heq, hpre⟩ := ih (topY c) [c] a b rest2 hgap
      refine ⟨cur :: pre, ?_, ?_⟩
      · simp [splitGo, hc, heq]
      · intro line hline x hx
        rcases List.mem_cons.mp hline with h1 | h1
        · exact List.mem_append_left _ (List.mem_append_left _ (h1 ▸ hx))
        · have := hpre line h1 x hx
          simp only [List.append_assoc, List.mem_append, List.mem_cons,
            List.mem_singleton, List.not_mem_nil, or_false] at this ⊢
          tauto

end Agg

namespace Agg

/-- Detection heights are absolute values, so the computed threshold is
nonnegative. -/
lemma lineThreshold_nonneg (rs : List Block) : 0 ≤ lineThreshold rs := by
  unfold lineThreshold
  apply mul_nonneg
  · apply div_nonneg
    · apply List.sum_nonneg
      intro x hx
      obtain ⟨bl, _, rfl⟩ := List.mem_map.mp hx
      exact abs_nonneg _
    · exact Nat.cast_nonneg _
  · norm_num

/-- Core same-line lemma: if `a` occurs before `b` in the y-sorted list
and their top-y values differ by at most the threshold, the grouping
puts `a` and `b` into one output line. -/
lemma groupTextBlocks_same_line_core (rs : List Block) (a b : Block)
    (l1 mid l2 : List Block)
    (hs : sortedByY rs = l1 ++ a :: mid ++ b :: l2)
    (hab : |topY a - topY b| ≤ lineThreshold rs) :
    ∃ line ∈ groupTextBlocks rs, a ∈ line ∧ b ∈ line := by
  have hsorted : List.Sorted blockLE (sortedByY rs) :=
    List.sorted_insertionSort blockLE rs
  rw [hs] at hsorted
  have hsub : (a :: mid ++ [b]).Sublist (l1 ++ a :: mid ++ b :: l2) := by
    have h2 : l1 ++ a :: mid ++ b :: l2 = l1 ++ ((a :: mid ++ [b]) ++ l2) := by
      simp
    rw [h2]
    exact ((a :: mid ++ [b]).sublist_append_left l2).trans
      (List.sublist_append_right l1 _)
  have hseg : List.Pairwise blockLE (a :: mid ++ [b]) := hsorted.sublist hsub
  have hseg' : List.Pairwise blockLE ((a :: mid) ++ [b]) := by simpa using hseg
  obtain ⟨hpre, _, hcross⟩ := List.pairwise_append.mp hseg'
  have hRb : List.Pairwise (fun u v => |topY v - topY u| ≤ lineThreshold rs)
      (a :: mid ++ [b]) := by
    refine hseg.imp_of_mem ?_
    intro x y hx hy hxy
    have hax : topY a ≤ topY x := by
      rcases List.mem_cons.mp hx with h1 | h1
      · exact le_of_eq (by rw [h1])
      · exact List.rel_of_pairwise_cons hseg h1
    have hyb : topY y ≤ topY b := by
      have hy' : y ∈ (a :: mid) ++ [b] := by simpa using hy
      rcases List.mem_append.mp hy' with h1 | h1
      · exact hcross y h1 b (by simp)
      · simp only [List.mem_singleton] at h1
        exact le_of_eq (by rw [h1])
    have hab' : topY b - topY a ≤ lineThreshold rs := by
      have h1 : |topY b - topY a| ≤ lineThreshold rs := by rwa [abs_sub_comm]
      exact le_trans (le_abs_self _) h1
    have h0 : (0 : ℚ) ≤ topY y - topY x := sub_nonneg.mpr hxy
    rw [abs_of_nonneg h0]
    linarith
  unfold groupTextBlocks
  rw [hs]
  cases l1 with
  | nil =>
    obtain ⟨line, hline, hal, hbl⟩ :=
      splitGo_chain_mem (lineThreshold rs) mid a [a] a b l2 (by simp) hRb
    refine ⟨sortLineByX line, ?_, ?_, ?_⟩
    · simp only [List.nil_append, groupSorted]
      exact List.mem_map_of_mem _ hline
    · exact ((List.perm_insertionSort blockXLE line).mem_iff).mpr hal
    · exact ((List.perm_insertionSort blockXLE line).mem_iff).mpr hbl
  | cons c cs =>
    obtain ⟨line, hline, hal, hbl⟩ :=
      splitGo_same_line (lineThreshold rs) cs (topY c) [c] a mid b l2 hRb
    refine ⟨sortLineByX line, ?_, ?_, ?_⟩
    · simp only [List.cons_append, groupSorted]
      exact List.mem_map_of_mem _ hline
    · exact ((List.perm_insertionSort blockXLE line).mem_iff).mpr hal
    · exact ((List.perm_insertionSort blockXLE line).mem_iff).mpr hbl

/-- Every input detection appears in some output line. -/
lemma groupTextBlocks_mem_exists (rs : List Block) (a : Block) (ha : a ∈ rs) :
    ∃ line ∈ groupTextBlocks rs, a ∈ line := by
  have ha' : a ∈ sortedByY rs :=
    ((List.perm_insertionSort blockLE rs).mem_iff).mpr ha
  unfold groupTextBlocks
  cases hs : sortedByY rs with
  | nil => rw [hs] at ha'; simp at ha'
  | cons h t =>
    rw [hs] at ha'
    obtain ⟨line, hline, hal⟩ :=
      splitGo_mem (lineThreshold rs) t (topY h) [h] a (by simpa using ha')
    refine ⟨sortLineByX line, ?_, ?_⟩
    · simp only [groupSorted]
      exact List.mem_map_of_mem _ hline
    · exact ((List.perm_insertionSort blockXLE line).mem_iff).mpr hal

/-- Core different-line lemma: adjacent blocks of the y-sorted list whose
top-y gap exceeds the threshold are separated by a line break, and no
output line contains both. -/
lemma groupTextBlocks_break (rs : List Block) (a b : Block) (l1 l2 : List Block)
    (hs : sortedByY rs = l1 ++ a :: b :: l2)
    (hgap : lineThreshold rs < topY b - topY a) :
    ∀ line ∈ groupTextBlocks rs, ¬(a ∈ line ∧ b ∈ line) := by
  have hthr := lineThreshold_nonneg rs
  have hlt : topY a < topY b := by linarith
  have hgap' : ¬(|topY b - topY a| ≤ lineThreshold rs) := by
    rw [abs_of_nonneg (by linarith)]
    linarith
  have hsorted : List.Sorted blockLE (sortedByY rs) :=
    List.sorted_insertionSort blockLE rs
  rw [hs] at hsorted
  have hsorted' : List.Pairwise blockLE (l1 ++ a :: b :: l2) := hsorted
  obtain ⟨hpre, hsuf, hcross⟩ := List.pairwise_append.mp hsorted'
  have hsufB : List.Pairwise blockLE (b :: l2) := hsuf.of_cons
  have hmem_low : ∀ x ∈ l1 ++ [a], topY x ≤ topY a := by
    intro x hx
    rcases List.mem_append.mp hx with h1 | h1
    · exact hcross x h1 a (by simp)
    · simp only [List.mem_singleton] at h1
      exact le_of_eq (by rw [h1])
  have hmem_high : ∀ x ∈ b :: l2, topY b ≤ topY x := by
    intro x hx
    rcases List.mem_cons.mp hx with h1 | h1
    · exact le_of_eq (by rw [h1])
    · exact List.rel_of_pairwise_cons hsufB h1
  rintro line hline ⟨hal, hbl⟩
  unfold groupTextBlocks at hline
  rw [hs] at hline
  cases l1 with
  | nil =>
    simp only [List.nil_append, groupSorted] at hline
    rw [show splitGo (lineThreshold rs) (topY a) [a] (b :: l2) =
          [a] :: splitGo (lineThreshold rs) (topY b) [b] l2 from by
        simp [splitGo, hgap'],
      List.map_cons] at hline
    rcases List.mem_cons.mp hline with h1 | h1
    · have hline_a : line = [a] := by rw [h1]; rfl
      rw [hline_a] at hbl
      simp only [List.mem_singleton] at hbl
      rw [hbl] at hlt
      exact absurd hlt (lt_irrefl _)
    · obtain ⟨line', hline', rfl⟩ := List.mem_map.mp h1
      have hal' : a ∈ line' :=
        ((List.perm_insertionSort blockXLE line').mem_iff).mp hal
      have hsubs := splitGo_line_subset (lineThreshold rs) l2 (topY b) [b]
        line' hline' a hal'
      have := hmem_high a (by simpa using hsubs)
      linarith
  | cons c cs =>
    simp only [List.cons_append, groupSorted] at hline
    obtain ⟨pre, heq, hpre⟩ :=
      splitGo_break (lineThreshold rs) cs (topY c) [c] a b l2 hgap'
    rw [heq, List.map_append] at hline
    rcases List.mem_append.mp hline with h1 | h1
    · obtain ⟨line', hline', rfl⟩ := List.mem_map.mp h1
      have hbl' : b ∈ line' :=
        ((List.perm_insertionSort blockXLE line').mem_iff).mp hbl
      have hmem := hpre line' hline' b hbl'
      have hble : topY b ≤ topY a := by
        apply hmem_low
        simpa using hmem
      linarith
    · obtain ⟨line', hline', rfl⟩ := List.mem_map.mp h1
      have hal' : a ∈ line' :=
        ((List.perm_insertionSort blockXLE line').mem_iff).mp hal
      have hsubs := splitGo_line_subset (lineThreshold rs) l2 (topY b) [b]
        line' hline' a hal'
      have := hmem_high a (by simpa using hsubs)
      linarith

end Agg

/-- C2 counterexample: with detections at top-y 0, 5, 10 (threshold 5)
the grouping chains all three into one line, so the two detections whose
top-y values differ by 10 > 5 still share a line — refuting the claim
that a top-y difference above the threshold always separates lines. -/
theorem groupTextBlocks_threshold_counterexample :
    (∃ line ∈ Agg.groupTextBlocks [Samples.chainA, Samples.chainB, Samples.chainC],
      Samples.chainA ∈ line ∧ Samples.chainC ∈ line) ∧
    Agg.lineThreshold [Samples.chainA, Samples.chainB, Samples.chainC] <
      |Agg.topY Samples.chainA - Agg.topY Samples.chainC| := by
  decide

/-- C2 (amended): detections adjacent in the top-y-sorted order whose
top-y gap exceeds the threshold never share an output line, and any two
detections whose top-y values differ by at most the threshold always
share an output line. -/
theorem groupTextBlocks_threshold_behaviour (rs : List Agg.Block)
    (a b : Agg.Block) :
    (∀ l1 l2, Agg.sortedByY rs = l1 ++ a :: b :: l2 →
      Agg.lineThreshold rs < Agg.topY b - Agg.topY a →
      ∀ line ∈ Agg.groupTextBlocks rs, ¬(a ∈ line ∧ b ∈ line)) ∧
    (a ∈ rs → b ∈ rs → |Agg.topY a - Agg.topY b| ≤ Agg.lineThreshold rs →
      ∃ line ∈ Agg.groupTextBlocks rs, a ∈ line ∧ b ∈ line) := by
  constructor
  · intro l1 l2 hs hgap
    exact Agg.groupTextBlocks_break rs a b l1 l2 hs hgap
  · intro ha hb hab
    by_cases heq : a = b
    · subst heq
      obtain ⟨line, hline, hal⟩ := Agg.groupTextBlocks_mem_exists rs a ha
      exact ⟨line, hline, hal, hal⟩
    · have ha' : a ∈ Agg.sortedByY rs :=
        ((List.perm_insertionSort Agg.blockLE rs).mem_iff).mpr ha
      have hb' : b ∈ Agg.sortedByY rs :=
        ((List.perm_insertionSort Agg.blockLE rs).mem_iff).mpr hb
      obtain ⟨p, q, hpq⟩ := List.append_of_mem ha'
      rw [hpq] at hb'
      rcases List.mem_append.mp hb' with hbp | hbq
      · obtain ⟨p1, p2, hp⟩ := List.append_of_mem hbp
        have hs : Agg.sortedByY rs = p1 ++ b :: p2 ++ a :: q := by
          rw [hpq, hp]
        obtain ⟨line, hline, hbl, hal⟩ :=
          Agg.groupTextBlocks_same_line_core rs b a p1 p2 q hs
            (by rwa [abs_sub_comm])
        exact ⟨line, hline, hal, hbl⟩
      · rcases List.mem_cons.mp hbq with hba | hbq'
        · exact absurd hba.symm heq
        · obtain ⟨q1, q2, hq⟩ := List.append_of_mem hbq'
          have hs : Agg.sortedByY rs = p ++ a :: q1 ++ b :: q2 := by
            rw [hpq, hq]; simp
          exact Agg.groupTextBlocks_same_line_core rs a b p q1 q2 hs hab

/-- Witness for `groupTextBlocks_threshold_behaviour`: adjacent blocks
20 apart (threshold 5) land in different lines; blocks 5 apart
(threshold 5) land in the same line. -/
theorem groupTextBlocks_threshold_behaviour_witness :
    (∀ line ∈ Agg.groupTextBlocks [Samples.farA, Samples.farB],
      ¬(Samples.farA ∈ line ∧ Samples.farB ∈ line)) ∧
    (∃ line ∈ Agg.groupTextBlocks [Samples.chainA, Samples.chainB, Samples.chainC],
      Samples.chainA ∈ line ∧ Samples.chainB ∈ line) := by
  constructor
  · exact (groupTextBlocks_threshold_behaviour [Samples.farA, Samples.farB]
      Samples.farA Samples.farB).1 [] [] (by decide) (by decide)
  · exact (groupTextBlocks_threshold_behaviour
      [Samples.chainA, Samples.chainB, Samples.chainC]
      Samples.chainA Samples.chainB).2 (by decide) (by decide) (by decide)

/-- A permutation of the detection list leaves the computed threshold
unchanged (sum and length are permutation invariants). -/
lemma lineThreshold_perm (rs1 rs2 : List Agg.Block) (h : rs1.Perm rs2) :
    Agg.lineThreshold rs1 = Agg.lineThreshold rs2 := by
  unfold Agg.lineThreshold
  rw [h.length_eq, (h.map Agg.height).sum_eq]

/-- With pairwise distinct top-y values the y-sorted order of a
detection list is determined by the underlying multiset. -/
lemma sortedByY_eq_of_perm (rs1 rs2 : List Agg.Block) (hperm : rs1.Perm rs2)
    (hdist : rs1.Pairwise (fun u v => Agg.topY u ≠ Agg.topY v)) :
    Agg.sortedByY rs1 = Agg.sortedByY rs2 := by

  have hs1 : List.Sorted Agg.blockLE (Agg.sortedByY rs1) :=
    List.sorted_insertionSort Agg.blockLE rs1
  have hs2 : List.Sorted Agg.blockLE (Agg.sortedByY rs2) :=
    List.sorted_insertionSort Agg.blockLE rs2
  have hp1 : (Agg.sortedByY rs1).Perm rs1 := List.perm_insertionSort _ _
  have hp2 : (Agg.sortedByY rs2).Perm rs2 := List.perm_insertionSort _ _
  have hp12 : (Agg.sortedByY rs1).Perm (Agg.sortedByY rs2) :=
    hp1.trans (hperm.trans hp2.symm)
  have hdist1 : (Agg.sortedByY rs1).Pairwise
      (fun u v => Agg.topY u ≠ Agg.topY v) :=
    (List.Perm.pairwise_iff (fun h => Ne.symm h) hp1).mpr hdist
  have hdist2 : (Agg.sortedByY rs2).Pairwise
      (fun u v => Agg.topY u ≠ Agg.topY v) :=
    (List.Perm.pairwise_iff (fun h => Ne.symm h) hp12).mp hdist1
  have hstrict1 : (Agg.sortedByY rs1).Pairwise
      (fun u v => Agg.topY u < Agg.topY v) :=
    (hs1.and hdist1).imp fun h => lt_of_le_of_ne h.1 h.2
  have hstrict2 : (Agg.sortedByY rs2).Pairwise
      (fun u v => Agg.topY u < Agg.topY v) :=
    (hs2.and hdist2).imp fun h => lt_of_le_of_ne h.1 h.2
  haveI : IsAntisymm Agg.Block (fun u v => Agg.topY u < Agg.topY v) :=
    ⟨fun x y h1 h2 => absurd (h1.trans h2) (lt_irrefl _)⟩
  exact List.eq_of_perm_of_sorted hp12 hstrict1 hstrict2

/-- C5 counterexample: two detections with identical geometry and
different texts are a permutation pair on which `aggregate` differs —
the greedy clustering is order-sensitive on ties, so aggregation is not
invariant under all permutations. -/
theorem aggregate_perm_counterexample :
    [Samples.tieA, Samples.tieB].Perm [Samples.tieB, Samples.tieA] ∧
    Agg.aggregate [Samples.tieA, Samples.tieB] ≠
      Agg.aggregate [Samples.tieB, Samples.tieA] := by
  decide

/-- C5 (amended): on detection lists whose top-y values are pairwise
distinct, `aggregate` is invariant under permutation of its input. -/
theorem aggregate_perm_invariant (rs1 rs2 : List Agg.Block)
    (hperm : rs1.Perm rs2)
    (hdist : rs1.Pairwise (fun u v => Agg.topY u ≠ Agg.topY v)) :
    Agg.aggregate rs1 = Agg.aggregate rs2 := by
  unfold Agg.aggregate
  by_cases h1 : rs1 = []
  · subst h1
    have h2 : rs2 = [] := hperm.symm.eq_nil
    rw [h2]
  · have h2 : rs2 ≠ [] := by
      intro h
      subst h
      exact h1 hperm.eq_nil
    rw [if_neg h1, if_neg h2]
    unfold Agg.groupTextBlocks
    rw [lineThreshold_perm rs1 rs2 hperm, sortedByY_eq_of_perm rs1 rs2 hperm hdist]

/-- Witness for `aggregate_perm_invariant`: swapping two detections
with distinct top-y values. -/
theorem aggregate_perm_invariant_witness :
    Agg.aggregate [Samples.farA, Samples.farB] =
      Agg.aggregate [Samples.farB, Samples.farA] :=
  aggregate_perm_invariant [Samples.farA, Samples.farB]
    [Samples.farB, Samples.farA] (by decide) (by decide)

/-- Decimal digit characters produced by `Nat.digitChar` parse back to
their value. -/
lemma digitChar_facts : ∀ d, d < 10 →
    (Nat.digitChar d).isDigit = true ∧ (Nat.digitChar d).toNat - 48 = d := by
  decide

/-- Reading `k` digits off a `k`-wide zero-padded rendering recovers the
rendered value and leaves the rest of the input untouched. -/
lemma readNat_padDigits (k : Nat) :
    ∀ (j m : Nat) (rest : List Char) (a : Nat), m < 10 ^ k →
      Iso.readNat (j + k) (Iso.padDigits k m ++ rest) a =
        Iso.readNat j rest (a * 10 ^ k + m) := by
  induction k with
  | zero =>
    intro j m rest a hm
    interval_cases m
    simp [Iso.padDigits]
  | succ k ih =>
    intro j m rest a hm
    have hdiv : m / 10 < 10 ^ k := by
      rw [Nat.div_lt_iff_lt_mul (by norm_num)]
      calc m < 10 ^ (k + 1) := hm
        _ = 10 ^ k * 10 := by rw [pow_succ]
    have hd : m % 10 < 10 := Nat.mod_lt _ (by norm_num)
    have hlist : Iso.padDigits (k + 1) m ++ rest =
        Iso.padDigits k (m / 10) ++ (Nat.digitChar (m % 10) :: rest) := by
      simp [Iso.padDigits]
    rw [hlist, show j + (k + 1) = (j + 1) + k from by omega,
      ih (j + 1) (m / 10) (Nat.digitChar (m % 10) :: rest) a hdiv]
    obtain ⟨hdig, hval⟩ := digitChar_facts (m % 10) hd
    rw [Iso.readNat, if_pos hdig, hval]
    congr 1
    have hmd := Nat.div_add_mod m 10
    rw [pow_succ]
    ring_nf
    omega

/-- Reading a padded field from position zero. -/
lemma readNat_padDigits_exact (k m : Nat) (rest : List Char)
    (hm : m < 10 ^ k) :
    Iso.readNat k (Iso.padDigits k m ++ rest) 0 = some (m, rest) := by
  have h := readNat_padDigits k 0 m rest 0 hm
  simpa [Iso.readNat] using h

set_option maxHeartbeats 2000000 in
/-- `datetime.fromisoformat` inverts `datetime.isoformat` on every
in-range timestamp. -/
lemma fromIso_toIso (d : Iso.PyDateTime) (h : Iso.InRange d) :
    Iso.fromIso (Iso.toIso d) = some d := by
  obtain ⟨y, mo, dd, hh, mi, s, us⟩ := d
  obtain ⟨h1, h2, h3, h4, h5, h6, h7⟩ := h
  simp only at h1 h2 h3 h4 h5 h6 h7
  rw [show (10000 : Nat) = 10 ^ 4 from by norm_num] at h1
  rw [show (100 : Nat) = 10 ^ 2 from by norm_num] at h2 h3 h4 h5 h6
  rw [show (1000000 : Nat) = 10 ^ 6 from by norm_num] at h7
  unfold Iso.toIso Iso.fromIso
  simp only
  by_cases hus : us = 0
  · subst hus
    simp only [if_pos rfl]
    rw [readNat_padDigits_exact 4 y _ h1]
    simp only [Option.bind_eq_bind, Option.some_bind, Iso.expectChar, reduceIte]
    rw [readNat_padDigits_exact 2 mo _ h2]
    simp only [Option.some_bind, Iso.expectChar, reduceIte]
    rw [readNat_padDigits_exact 2 dd _ h3]
    simp only [Option.some_bind, Iso.expectChar, reduceIte]
    rw [readNat_padDigits_exact 2 hh _ h4]
    simp only [Option.some_bind, Iso.expectChar, reduceIte]
    rw [readNat_padDigits_exact 2 mi _ h5]
    simp only [Option.some_bind, Iso.expectChar, reduceIte]
    rw [readNat_padDigits_exact 2 s [] h6]
    simp
  · simp only [if_neg hus]
    rw [readNat_padDigits_exact 4 y _ h1]
    simp only [Option.bind_eq_bind, Option.some_bind, Iso.expectChar, reduceIte]
    rw [readNat_padDigits_exact 2 mo _ h2]
    simp only [Option.some_bind, Iso.expectChar, reduceIte]
    rw [readNat_padDigits_exact 2 dd _ h3]
    simp only [Option.some_bind, Iso.expectChar, reduceIte]
    rw [readNat_padDigits_exact 2 hh _ h4]
    simp only [Option.some_bind, Iso.expectChar, reduceIte]
    rw [readNat_padDigits_exact 2 mi _ h5]
    simp only [Option.some_bind, Iso.expectChar, reduceIte]
    rw [readNat_padDigits_exact 2 s _ h6]
    simp only [Option.some_bind, Iso.expectChar, reduceIte]
    rw [show Iso.padDigits 6 us = Iso.padDigits 6 us ++ [] from by simp]
    rw [readNat_padDigits_exact 6 us [] h7]
    simp

/-- Serializing a `TranslationEntry` to its persisted dictionary and
parsing it back is the identity (given an in-range timestamp). -/
lemma from_dict_to_dict (e : Model.TranslationEntry)
    (h : Iso.InRange e.timestamp) :
    Model.from_dict (Model.to_dict e) = some e := by
  obtain ⟨st, tt, sl, tl, te, ts⟩ := e
  simp only [Model.to_dict, Model.from_dict]
  rw [fromIso_toIso ts h]
  rfl

/-- Saving a history and reloading it recovers the same entries. -/
lemma loadHistory_saveHistory (l : List Model.TranslationEntry)
    (hv : ∀ x ∈ l, Iso.InRange x.timestamp) :
    Model.loadHistory (Model.saveHistory l) = some l := by
  induction l with
  | nil => rfl
  | cons x xs ih =>
    have hx := hv x (List.mem_cons_self _ _)
    have hxs : ∀ y ∈ xs, Iso.InRange y.timestamp := fun y hy =>
      hv y (List.mem_cons_of_mem _ hy)
    have ih' := ih hxs
    simp only [Model.saveHistory, Model.loadHistory, List.map_cons,
      List.mapM_cons] at ih' ⊢
    rw [from_dict_to_dict x hx]
    simp only [ih']
    rfl

/-- C9: appending an entry and reloading the store from the persisted
dictionaries yields exactly the same entries — in particular the
appended entry, equal in all six fields — and `to_dict`/`from_dict` is
the identity on entries whose timestamp is in range. -/
theorem history_roundtrip (h : List Model.TranslationEntry)
    (e : Model.TranslationEntry)
    (hv : ∀ x ∈ h ++ [e], Iso.InRange x.timestamp) :
    (Model.add_to_history e h).1 = h ++ [e] ∧
    Model.loadHistory (Model.add_to_history e h).2 = some (h ++ [e]) ∧
    Model.from_dict (Model.to_dict e) = some e := by
  refine ⟨rfl, ?_, from_dict_to_dict e (hv e (by simp))⟩
  exact loadHistory_saveHistory (h ++ [e]) hv

/-- Witness for `history_roundtrip` on a concrete entry. -/
theorem history_roundtrip_witness :
    (Model.add_to_history Samples.entry0 []).1 = [Samples.entry0] ∧
    Model.loadHistory (Model.add_to_history Samples.entry0 []).2 =
      some [Samples.entry0] ∧
    Model.from_dict (Model.to_dict Samples.entry0) = some Samples.entry0 := by
  have h := history_roundtrip [] Samples.entry0 ?hv
  · simpa using h
  case hv =>
    intro x hx
    simp only [List.nil_append, List.mem_singleton] at hx
    subst hx
    decide
